import Mathlib

/-!
Verification of the winding-geometry engine of `coil_pack_app.py`
(`CoilPackModel.compute`).  Python floats are modelled as exact rationals,
integer fields as `ℤ`, and `math.pi` as the IEEE-754 double nearest π,
which is an exact rational.  The Python `for` loop over `range(layers)`
with its early `break` is modelled by structural recursion on the number
of remaining loop iterations (`fuel`), which equals `range(layers)`'s
length at the start.
-/

/-- Mirror of the Python dataclass `CoilInputs` (all lengths in mm). -/
structure CoilInputs where
  inner_diameter_mm : ℚ
  outer_diameter_mm : ℚ
  bobbin_length_mm : ℚ
  strand_diameter_mm : ℚ
  strands_per_turn : ℤ
  turns_per_layer : ℤ
  total_turns : ℤ
  insulation_factor : ℚ := 1.08
  margin_mm : ℚ := 0.75
  lead_slot_width_mm : ℚ := 10
  lead_slot_depth_mm : ℚ := 5
  horiz_pack_factor : ℚ := 0.86
  vert_pack_factor : ℚ := 0.77
  wire_type : String := "Copper"

/-- Mirror of the Python dataclass `CoilOutputs`. -/
structure CoilOutputs where
  window_width_mm : ℚ
  window_height_mm : ℚ
  layers : ℤ
  strand_centers : List (ℚ × ℚ)
  strand_radius_mm : ℚ
  fill_factor : ℚ
  adjusted_turns : ℤ

/-- The value of Python `math.pi`: the IEEE-754 double closest to π,
an exact rational (`884279719003555 / 2^48`). -/
def mathPi : ℚ := 884279719003555 / 281474976710656

namespace CoilPackModel

/-- `radial_thickness = (outer_diameter - inner_diameter) / 2.0`. -/
def radialThickness (p : CoilInputs) : ℚ :=
  (p.outer_diameter_mm - p.inner_diameter_mm) / 2

/-- `window_height = max(0.0, radial_thickness - 2 * margin)`. -/
def windowHeight (p : CoilInputs) : ℚ :=
  max 0 (radialThickness p - 2 * p.margin_mm)

/-- `window_width = max(0.0, bobbin_length - 2 * margin)`. -/
def windowWidth (p : CoilInputs) : ℚ :=
  max 0 (p.bobbin_length_mm - 2 * p.margin_mm)

/-- `d_eff = strand_diameter * insulation_factor`. -/
def dEff (p : CoilInputs) : ℚ := p.strand_diameter_mm * p.insulation_factor

/-- `radius = d_eff / 2.0`. -/
def radius (p : CoilInputs) : ℚ := dEff p / 2

/-- `bundle_w = strands_per_turn * d_eff`. -/
def bundleW (p : CoilInputs) : ℚ := (p.strands_per_turn : ℚ) * dEff p

/-- `spacing_x = bundle_w * horiz_pack_factor`. -/
def spacingX (p : CoilInputs) : ℚ := bundleW p * p.horiz_pack_factor

/-- `spacing_y = d_eff * vert_pack_factor`. -/
def spacingY (p : CoilInputs) : ℚ := dEff p * p.vert_pack_factor

/-- `layers = math.ceil(total_turns / max(1, turns_per_layer))`. -/
def layersCount (p : CoilInputs) : ℤ :=
  ⌈(p.total_turns : ℚ) / ((max 1 p.turns_per_layer : ℤ) : ℚ)⌉

/-- The window-validity test: the negation of the guard
`window_width <= 0 or window_height <= 0`. -/
def validWindow (p : CoilInputs) : Prop :=
  0 < windowWidth p ∧ 0 < windowHeight p

instance (p : CoilInputs) : Decidable (validWindow p) :=
  inferInstanceAs (Decidable (_ ∧ _))

/-- The innermost loop `for s in range(strands_per_turn)`: the strand
centers of one turn, at layer `ly` and turn index `tx`
(`base_x = margin + tx*spacing_x`, `lx = s*d_eff`,
 center `(base_x + lx + radius, base_y + radius)`). -/
def turnCenters (p : CoilInputs) (ly tx : ℕ) : List (ℚ × ℚ) :=
  (List.range p.strands_per_turn.toNat).map fun (s : ℕ) =>
    (p.margin_mm + tx * spacingX p + (s : ℚ) * dEff p + radius p,
     p.margin_mm + ly * spacingY p + radius p)

/-- The loop `for tx in range(turns_this_layer)`: all centers of one
layer holding `t` turns (`range` of a negative count is empty). -/
def layerCenters (p : CoilInputs) (ly : ℕ) (t : ℤ) : List (ℚ × ℚ) :=
  (List.range t.toNat).flatMap fun tx => turnCenters p ly tx

/-- The loop `for ly in range(layers)` with
`turns_this_layer = min(turns_per_layer, remaining)`,
`remaining -= turns_this_layer` and early `break` when `remaining <= 0`;
`fuel` is the number of loop iterations still available. -/
def placeLoop (p : CoilInputs) : ℕ → ℤ → ℕ → List (ℚ × ℚ)
  | 0, _, _ => []
  | fuel + 1, remaining, ly =>
    let t := min p.turns_per_layer remaining
    let block := layerCenters p ly t
    if remaining - t ≤ 0 then block
    else block ++ placeLoop p fuel (remaining - t) (ly + 1)

/-- `centers_global` for a valid window. -/
def centersGlobal (p : CoilInputs) : List (ℚ × ℚ) :=
  placeLoop p (layersCount p).toNat p.total_turns 0

/-- The membership test of the fill-factor tally:
`left <= x <= right and bottom <= y <= top` with
`left = bottom = margin`, `right = margin + window_width`,
`top = margin + window_height`. -/
def inWindow (p : CoilInputs) (c : ℚ × ℚ) : Bool :=
  decide (p.margin_mm ≤ c.1 ∧ c.1 ≤ p.margin_mm + windowWidth p ∧
          p.margin_mm ≤ c.2 ∧ c.2 ≤ p.margin_mm + windowHeight p)

/-- `CoilPackModel.compute`, translated line by line from
`coil_pack_app.py` (lines 44–86). -/
def compute (p : CoilInputs) : CoilOutputs :=
  if windowWidth p ≤ 0 ∨ windowHeight p ≤ 0 then
    { window_width_mm := windowWidth p, window_height_mm := windowHeight p,
      layers := 0, strand_centers := [], strand_radius_mm := radius p,
      fill_factor := 0, adjusted_turns := 0 }
  else
    let centers_global := centersGlobal p
    let in_window_count := centers_global.countP (inWindow p)
    let copper_area := (in_window_count : ℚ) * mathPi * radius p ^ 2
    let window_area := windowWidth p * windowHeight p
    let fill_factor := if 0 < window_area then copper_area / window_area * 100 else 0
    { window_width_mm := windowWidth p, window_height_mm := windowHeight p,
      layers := layersCount p, strand_centers := centers_global,
      strand_radius_mm := radius p, fill_factor := fill_factor,
      adjusted_turns := p.total_turns }

/-- Turn count that layer `ly` receives, according to §4.2 of the spec:
`min(turns_per_layer, remaining)` where, after `ly` full layers,
`remaining = total_turns - ly * turns_per_layer`. -/
def specLayerTurns (p : CoilInputs) (ly : ℕ) : ℤ :=
  min p.turns_per_layer (p.total_turns - (ly : ℤ) * p.turns_per_layer)

/-- The placement sequence as §4.2 of the spec words it: layer-major,
then turn-major within a layer, then strand-index-major within a turn,
with center `(margin + tx*spacing_x + s*d_eff + radius,
margin + ly*spacing_y + radius)`. -/
def specCenters (p : CoilInputs) : List (ℚ × ℚ) :=
  (List.range (layersCount p).toNat).flatMap fun ly =>
    (List.range (specLayerTurns p ly).toNat).flatMap fun tx =>
      (List.range p.strands_per_turn.toNat).map fun (s : ℕ) =>
        (p.margin_mm + tx * spacingX p + (s : ℚ) * dEff p + radius p,
         p.margin_mm + ly * spacingY p + radius p)

/-- The same winding spec with all five length fields scaled by `k`
(counts, insulation factor and pack factors untouched). -/
def scaleInputs (k : ℚ) (p : CoilInputs) : CoilInputs :=
  { p with inner_diameter_mm := k * p.inner_diameter_mm,
           outer_diameter_mm := k * p.outer_diameter_mm,
           bobbin_length_mm := k * p.bobbin_length_mm,
           strand_diameter_mm := k * p.strand_diameter_mm,
           margin_mm := k * p.margin_mm }

/-- The winding spec that `CoilApp` constructs at start-up (its imperial
inputs converted to millimetres). -/
def defaultInputs : CoilInputs :=
  { inner_diameter_mm := 212.725, outer_diameter_mm := 267.462,
    bobbin_length_mm := 13.8684, strand_diameter_mm := 0.85598,
    strands_per_turn := 3, turns_per_layer := 5, total_turns := 180 }

/-- An overpacked spec: one strand of effective diameter 2 in a 1×1 window. -/
def overpackInputs : CoilInputs :=
  { inner_diameter_mm := 0, outer_diameter_mm := 2, bobbin_length_mm := 1,
    strand_diameter_mm := 2, strands_per_turn := 1, turns_per_layer := 1,
    total_turns := 1, insulation_factor := 1, margin_mm := 0,
    horiz_pack_factor := 1, vert_pack_factor := 1 }

/-- A valid-window spec with a negative turn count. -/
def negTurnsInputs : CoilInputs :=
  { inner_diameter_mm := 0, outer_diameter_mm := 10, bobbin_length_mm := 10,
    strand_diameter_mm := 1, strands_per_turn := 1, turns_per_layer := 5,
    total_turns := -5, insulation_factor := 1, margin_mm := 0,
    horiz_pack_factor := 1, vert_pack_factor := 1 }

/-- A degenerate spec: the bobbin length leaves no window after margins. -/
def degenerateInputs : CoilInputs :=
  { inner_diameter_mm := 10, outer_diameter_mm := 30, bobbin_length_mm := 1,
    strand_diameter_mm := 1, strands_per_turn := 3, turns_per_layer := 5,
    total_turns := 100 }

/-- A valid-window spec with `turns_per_layer = 0`. -/
def zeroTplInputs : CoilInputs :=
  { inner_diameter_mm := 0, outer_diameter_mm := 10, bobbin_length_mm := 10,
    strand_diameter_mm := 1, strands_per_turn := 2, turns_per_layer := 0,
    total_turns := 3, insulation_factor := 1, margin_mm := 0,
    horiz_pack_factor := 1, vert_pack_factor := 1 }

/-- A valid-window spec with a negative strand count. -/
def negStrandsInputs : CoilInputs :=
  { inner_diameter_mm := 0, outer_diameter_mm := 10, bobbin_length_mm := 10,
    strand_diameter_mm := 1, strands_per_turn := -2, turns_per_layer := 5,
    total_turns := 7, insulation_factor := 1, margin_mm := 0,
    horiz_pack_factor := 1, vert_pack_factor := 1 }

/-! ### Basic lemmas -/

theorem windowWidth_nonneg (p : CoilInputs) : 0 ≤ windowWidth p :=
  le_max_left 0 _

theorem windowHeight_nonneg (p : CoilInputs) : 0 ≤ windowHeight p :=
  le_max_left 0 _

theorem compute_of_invalid (p : CoilInputs)
    (h : windowWidth p ≤ 0 ∨ windowHeight p ≤ 0) :
    compute p =
      { window_width_mm := windowWidth p, window_height_mm := windowHeight p,
        layers := 0, strand_centers := [], strand_radius_mm := radius p,
        fill_factor := 0, adjusted_turns := 0 } := by
  unfold compute
  rw [if_pos h]

theorem compute_of_valid (p : CoilInputs) (h : validWindow p) :
    compute p =
      { window_width_mm := windowWidth p, window_height_mm := windowHeight p,
        layers := layersCount p, strand_centers := centersGlobal p,
        strand_radius_mm := radius p,
        fill_factor :=
          if 0 < windowWidth p * windowHeight p then
            (((centersGlobal p).countP (inWindow p) : ℚ) * mathPi *
              radius p ^ 2) / (windowWidth p * windowHeight p) * 100
          else 0,
        adjusted_turns := p.total_turns } := by
  unfold compute
  rw [if_neg]
  simp only [not_or, not_le]
  exact ⟨h.1, h.2⟩

theorem fill_of_valid (p : CoilInputs) (h : validWindow p) :
    (compute p).fill_factor =
      (((centersGlobal p).countP (inWindow p) : ℚ) * mathPi * radius p ^ 2) /
        (windowWidth p * windowHeight p) * 100 := by
  rw [compute_of_valid p h]
  simp only [if_pos (mul_pos h.1 h.2)]

theorem turnCenters_length (p : CoilInputs) (ly tx : ℕ) :
    (turnCenters p ly tx).length = p.strands_per_turn.toNat := by
  unfold turnCenters
  rw [List.length_map, List.length_range]

theorem layerCenters_length (p : CoilInputs) (ly : ℕ) (t : ℤ) :
    (layerCenters p ly t).length = t.toNat * p.strands_per_turn.toNat := by
  unfold layerCenters
  rw [List.length_flatMap]
  have h1 : List.map (List.length ∘ fun tx => turnCenters p ly tx)
      (List.range t.toNat) =
      List.replicate t.toNat p.strands_per_turn.toNat := by
    rw [List.eq_replicate]
    refine ⟨by simp, fun b hb => ?_⟩
    obtain ⟨tx, _, rfl⟩ := List.mem_map.1 hb
    exact turnCenters_length p ly tx
  rw [h1, List.sum_replicate, smul_eq_mul]

theorem validWindow_of (p : CoilInputs)
    (h1 : 0 < p.bobbin_length_mm - 2 * p.margin_mm)
    (h2 : 0 < radialThickness p - 2 * p.margin_mm) : validWindow p :=
  ⟨lt_of_lt_of_le h1 (le_max_right 0 _), lt_of_lt_of_le h2 (le_max_right 0 _)⟩

theorem layersCount_eq (p : CoilInputs) (z : ℤ)
    (h : (p.total_turns : ℚ) / ((max 1 p.turns_per_layer : ℤ) : ℚ) =
      ((z : ℤ) : ℚ)) : layersCount p = z := by
  unfold layersCount
  rw [h, Int.ceil_intCast]

theorem placeLoop_spt_nonpos (p : CoilInputs) (h : p.strands_per_turn ≤ 0) :
    ∀ (fuel : ℕ) (r : ℤ) (ly : ℕ), placeLoop p fuel r ly = [] := by
  intro fuel
  induction fuel with
  | zero => intro r ly; rfl
  | succ n ih =>
    intro r ly
    have hturn : ∀ ly' tx, turnCenters p ly' tx = [] := by
      intro ly' tx
      simp [turnCenters, Int.toNat_of_nonpos h]
    have hblock : ∀ ly' t, layerCenters p ly' t = [] := by
      intro ly' t
      simp [layerCenters, hturn]
    simp only [placeLoop, hblock]
    split <;> simp [ih]

theorem layersCount_nonpos (p : CoilInputs) (h : p.total_turns ≤ 0) :
    layersCount p ≤ 0 := by
  unfold layersCount
  rw [Int.ceil_le]
  push_cast
  apply div_nonpos_of_nonpos_of_nonneg
  · exact_mod_cast h
  · exact le_max_of_le_left (by norm_num)

theorem centersGlobal_of_nonpos_turns (p : CoilInputs)
    (h : p.total_turns ≤ 0) : centersGlobal p = [] := by
  unfold centersGlobal
  rw [Int.toNat_of_nonpos (layersCount_nonpos p h)]
  rfl

/-! ### Claims -/

/-- C4: for margin ≥ 0 and a collapsed window
(`outer_diameter ≤ inner_diameter + 2*margin` or
`bobbin_length ≤ 2*margin`), `compute` returns the degenerate result:
the corresponding window dimension clamps to 0 (both are always ≥ 0),
`layers = 0`, `strand_centers = []`, `fill_factor = 0`,
`adjusted_turns = 0`, with no error signalled. -/
theorem claim_C4_degenerate_window (p : CoilInputs) (hm : 0 ≤ p.margin_mm)
    (h : p.outer_diameter_mm ≤ p.inner_diameter_mm + 2 * p.margin_mm ∨
         p.bobbin_length_mm ≤ 2 * p.margin_mm) :
    0 ≤ (compute p).window_width_mm ∧ 0 ≤ (compute p).window_height_mm ∧
    (p.outer_diameter_mm ≤ p.inner_diameter_mm + 2 * p.margin_mm →
      (compute p).window_height_mm = 0) ∧
    (p.bobbin_length_mm ≤ 2 * p.margin_mm →
      (compute p).window_width_mm = 0) ∧
    (compute p).layers = 0 ∧ (compute p).strand_centers = [] ∧
    (compute p).fill_factor = 0 ∧ (compute p).adjusted_turns = 0 := by
  have hwh : p.outer_diameter_mm ≤ p.inner_diameter_mm + 2 * p.margin_mm →
      windowHeight p = 0 := by
    intro hle
    unfold windowHeight radialThickness
    rw [max_eq_left]
    linarith
  have hww : p.bobbin_length_mm ≤ 2 * p.margin_mm → windowWidth p = 0 := by
    intro hle
    unfold windowWidth
    rw [max_eq_left]
    linarith
  have hguard : windowWidth p ≤ 0 ∨ windowHeight p ≤ 0 := by
    rcases h with h | h
    · exact Or.inr (le_of_eq (hwh h))
    · exact Or.inl (le_of_eq (hww h))
  rw [compute_of_invalid p hguard]
  exact ⟨windowWidth_nonneg p, windowHeight_nonneg p, hwh, hww,
    rfl, rfl, rfl, rfl⟩

theorem claim_C4_witness :
    (0 : ℚ) ≤ degenerateInputs.margin_mm ∧
    (degenerateInputs.outer_diameter_mm ≤
        degenerateInputs.inner_diameter_mm + 2 * degenerateInputs.margin_mm ∨
      degenerateInputs.bobbin_length_mm ≤ 2 * degenerateInputs.margin_mm) ∧
    ((compute degenerateInputs).strand_centers = [] ∧
      (compute degenerateInputs).fill_factor = 0) := by
  have h := claim_C4_degenerate_window degenerateInputs (by norm_num [degenerateInputs])
    (Or.inr (by norm_num [degenerateInputs]))
  exact ⟨by norm_num [degenerateInputs],
    Or.inr (by norm_num [degenerateInputs]),
    h.2.2.2.2.2.1, h.2.2.2.2.2.2.1⟩

/-- C8: for negative or zero `strands_per_turn` or `total_turns`,
`compute` still returns (totality is by construction in this model) and
the result has no strand centers and a zero fill factor. -/
theorem claim_C8_nonpositive_counts (p : CoilInputs)
    (h : p.strands_per_turn ≤ 0 ∨ p.total_turns ≤ 0) :
    (compute p).strand_centers = [] ∧ (compute p).fill_factor = 0 := by
  by_cases hw : validWindow p
  · have hcg : centersGlobal p = [] := by
      rcases h with h | h
      · unfold centersGlobal
        exact placeLoop_spt_nonpos p h _ _ _
      · exact centersGlobal_of_nonpos_turns p h
    rw [compute_of_valid p hw]
    refine ⟨hcg, ?_⟩
    simp [hcg]
  · have hg : windowWidth p ≤ 0 ∨ windowHeight p ≤ 0 := by
      unfold validWindow at hw
      push_neg at hw
      rcases le_or_lt (windowWidth p) 0 with h' | h'
      · exact Or.inl h'
      · exact Or.inr (hw h')
    rw [compute_of_invalid p hg]
    exact ⟨rfl, rfl⟩

theorem claim_C8_witness :
    (negStrandsInputs.strands_per_turn ≤ 0 ∨
      negStrandsInputs.total_turns ≤ 0) ∧
    ((compute negStrandsInputs).strand_centers = [] ∧
      (compute negStrandsInputs).fill_factor = 0) :=
  ⟨Or.inl (by norm_num [negStrandsInputs]),
    claim_C8_nonpositive_counts negStrandsInputs
      (Or.inl (by norm_num [negStrandsInputs]))⟩

theorem placeLoop_tpl_zero (p : CoilInputs) (h : p.turns_per_layer = 0) :
    ∀ (fuel : ℕ) (r : ℤ) (ly : ℕ), 0 < r → placeLoop p fuel r ly = [] := by
  intro fuel
  induction fuel with
  | zero => intro r ly _; rfl
  | succ n ih =>
    intro r ly hr
    have ht : min p.turns_per_layer r = 0 := by
      rw [h]
      exact min_eq_left hr.le
    simp only [placeLoop, ht, sub_zero]
    rw [if_neg (by omega)]
    have hblock : layerCenters p ly 0 = [] := by
      simp [layerCenters]
    rw [hblock, List.nil_append]
    exact ih r (ly + 1) hr

/-- C9: with a valid window, `turns_per_layer = 0` and `total_turns ≥ 1`,
`compute` terminates (the loop is bounded by its `range(layers)` fuel):
`layers = ceil(total_turns / max(1,0)) = total_turns`, every iteration
places zero turns (`placeLoop` yields `[]` from any positive remaining
count, at any fuel), and the result has an empty center list. -/
theorem claim_C9_turns_per_layer_zero (p : CoilInputs) (hw : validWindow p)
    (h0 : p.turns_per_layer = 0) (hT : 1 ≤ p.total_turns) :
    layersCount p = p.total_turns ∧
    (compute p).layers = p.total_turns ∧
    (∀ (fuel : ℕ) (r : ℤ) (ly : ℕ), 0 < r → placeLoop p fuel r ly = []) ∧
    (compute p).strand_centers = [] := by
  have hl : layersCount p = p.total_turns := by
    unfold layersCount
    rw [h0]
    norm_num
  refine ⟨hl, ?_, placeLoop_tpl_zero p h0, ?_⟩
  · rw [compute_of_valid p hw]
    exact hl
  · rw [compute_of_valid p hw]
    show centersGlobal p = []
    unfold centersGlobal
    exact placeLoop_tpl_zero p h0 _ _ _ (by omega)

theorem claim_C9_witness :
    validWindow zeroTplInputs ∧ zeroTplInputs.turns_per_layer = 0 ∧
    1 ≤ zeroTplInputs.total_turns ∧
    (layersCount zeroTplInputs = zeroTplInputs.total_turns ∧
      (compute zeroTplInputs).strand_centers = []) := by
  have hw : validWindow zeroTplInputs :=
    validWindow_of _ (by norm_num [zeroTplInputs])
      (by norm_num [zeroTplInputs, radialThickness])
  have h := claim_C9_turns_per_layer_zero zeroTplInputs hw rfl (by decide)
  exact ⟨hw, rfl, by decide, h.1, h.2.2.2⟩

/-- C10: with a valid window and `total_turns < 0`, `compute` returns an
empty center list and zero fill factor, but `layers` is the raw ceiling
`ceil(total_turns / max(1, turns_per_layer))`, which is ≤ 0 (and can be
negative, e.g. `-1` for `total_turns = -5, turns_per_layer = 5`), and
`adjusted_turns` echoes the negative `total_turns`: the degenerate-window
normalisation to 0 is not applied here. -/
theorem claim_C10_negative_turns (p : CoilInputs) (hw : validWindow p)
    (hT : p.total_turns < 0) :
    (compute p).strand_centers = [] ∧ (compute p).fill_factor = 0 ∧
    (compute p).layers = layersCount p ∧ layersCount p ≤ 0 ∧
    (compute p).adjusted_turns = p.total_turns := by
  have hcg : centersGlobal p = [] := centersGlobal_of_nonpos_turns p hT.le
  rw [compute_of_valid p hw]
  refine ⟨hcg, ?_, rfl, layersCount_nonpos p hT.le, rfl⟩
  simp [hcg]

theorem claim_C10_witness :
    validWindow negTurnsInputs ∧ negTurnsInputs.total_turns < 0 ∧
    ((compute negTurnsInputs).strand_centers = [] ∧
      (compute negTurnsInputs).fill_factor = 0 ∧
      (compute negTurnsInputs).adjusted_turns = negTurnsInputs.total_turns) ∧
    layersCount negTurnsInputs = -1 := by
  have hw : validWindow negTurnsInputs :=
    validWindow_of _ (by norm_num [negTurnsInputs])
      (by norm_num [negTurnsInputs, radialThickness])
  have h := claim_C10_negative_turns negTurnsInputs hw (by decide)
  refine ⟨hw, by decide, ⟨h.1, h.2.1, h.2.2.2.2⟩, ?_⟩
  apply layersCount_eq
  norm_num [negTurnsInputs, max_def]

theorem layersCount_nonneg (p : CoilInputs) (hT : 0 ≤ p.total_turns) :
    0 ≤ layersCount p := by
  apply Int.ceil_nonneg
  apply div_nonneg
  · exact_mod_cast hT
  · have : (1 : ℤ) ≤ max 1 p.turns_per_layer := le_max_left 1 _
    have : (0 : ℤ) ≤ max 1 p.turns_per_layer := by omega
    exact_mod_cast this

theorem layersCount_mul_ge (p : CoilInputs) (htpl : 1 ≤ p.turns_per_layer) :
    p.total_turns ≤ layersCount p * p.turns_per_layer := by
  have h0 : (0 : ℚ) < (p.turns_per_layer : ℚ) := by
    exact_mod_cast lt_of_lt_of_le zero_lt_one htpl
  have hmax : max 1 p.turns_per_layer = p.turns_per_layer := max_eq_right htpl
  have h1 : (p.total_turns : ℚ) / (p.turns_per_layer : ℚ) ≤
      ((layersCount p : ℤ) : ℚ) := by
    unfold layersCount
    rw [hmax]
    exact Int.le_ceil _
  have h2 : (p.total_turns : ℚ) ≤
      ((layersCount p : ℤ) : ℚ) * (p.turns_per_layer : ℚ) :=
    (div_le_iff h0).1 h1
  exact_mod_cast h2

theorem placeLoop_length (p : CoilInputs) (htpl : 1 ≤ p.turns_per_layer) :
    ∀ (fuel : ℕ) (r : ℤ), 0 < r → r ≤ (fuel : ℤ) * p.turns_per_layer →
      ∀ ly : ℕ,
        (placeLoop p fuel r ly).length = r.toNat * p.strands_per_turn.toNat := by
  intro fuel
  induction fuel with
  | zero =>
    intro r hr hle ly
    rw [Nat.cast_zero, zero_mul] at hle
    omega
  | succ n ih =>
    intro r hr hle ly
    by_cases hcase : r ≤ p.turns_per_layer
    · have ht : min p.turns_per_layer r = r := min_eq_right hcase
      simp only [placeLoop, ht, sub_self]
      rw [if_pos le_rfl]
      exact layerCenters_length p ly r
    · push_neg at hcase
      have ht : min p.turns_per_layer r = p.turns_per_layer :=
        min_eq_left hcase.le
      simp only [placeLoop, ht]
      rw [if_neg (by omega), List.length_append, layerCenters_length,
        ih (r - p.turns_per_layer) (by omega) (by push_cast at hle ⊢; linarith)]
      rw [← Nat.add_mul]
      congr 1
      omega

/-- C1: for a valid window with `turns_per_layer ≥ 1`, `total_turns ≥ 0`
and `strands_per_turn ≥ 1`, `compute` reports
`layers = ceil(total_turns / turns_per_layer)` and places exactly
`strands_per_turn × total_turns` strand centers (for the start-up spec,
`total_turns = 180`, `turns_per_layer = 5`, `strands_per_turn = 3`,
that is 540 centers in 36 layers — see the witness). -/
theorem claim_C1_placement_count (p : CoilInputs) (hw : validWindow p)
    (htpl : 1 ≤ p.turns_per_layer) (hT : 0 ≤ p.total_turns)
    (hspt : 1 ≤ p.strands_per_turn) :
    (compute p).layers =
      ⌈(p.total_turns : ℚ) / (p.turns_per_layer : ℚ)⌉ ∧
    (compute p).strand_centers.length =
      p.strands_per_turn.toNat * p.total_turns.toNat := by
  constructor
  · rw [compute_of_valid p hw]
    show layersCount p = _
    unfold layersCount
    rw [max_eq_right htpl]
  · rw [compute_of_valid p hw]
    show (centersGlobal p).length = _
    rcases eq_or_lt_of_le hT with h0 | h0
    · rw [centersGlobal_of_nonpos_turns p (le_of_eq h0.symm)]
      rw [show p.total_turns.toNat = 0 by omega]
      rfl
    · unfold centersGlobal
      rw [placeLoop_length p htpl _ _ h0 ?_ 0]
      · exact Nat.mul_comm _ _
      · rw [Int.toNat_of_nonneg (layersCount_nonneg p hT)]
        exact layersCount_mul_ge p htpl

theorem claim_C1_witness :
    validWindow defaultInputs ∧ 1 ≤ defaultInputs.turns_per_layer ∧
    0 ≤ defaultInputs.total_turns ∧ 1 ≤ defaultInputs.strands_per_turn ∧
    (compute defaultInputs).layers = 36 ∧
    (compute defaultInputs).strand_centers.length = 540 := by
  have hw : validWindow defaultInputs :=
    validWindow_of _ (by norm_num [defaultInputs])
      (by norm_num [defaultInputs, radialThickness])
  have h := claim_C1_placement_count defaultInputs hw
    (by decide) (by decide) (by decide)
  refine ⟨hw, by decide, by decide, by decide, ?_, ?_⟩
  · rw [h.1, show ((defaultInputs.total_turns : ℚ) /
        (defaultInputs.turns_per_layer : ℚ)) = ((36 : ℤ) : ℚ) by
          norm_num [defaultInputs], Int.ceil_intCast]
  · rw [h.2]
    rfl

/-- C3: with a valid window, `fill_factor` equals
`N * π * radius² / (window_width * window_height) * 100`, where `N`
counts exactly the strand centers lying within the closed (inclusive)
bounds `margin ≤ x ≤ margin + window_width`,
`margin ≤ y ≤ margin + window_height`; centers outside those bounds are
excluded from the tally yet remain in `strand_centers` (the count is a
filter over `strand_centers` itself). -/
theorem claim_C3_fill_factor_formula (p : CoilInputs) (hw : validWindow p) :
    (compute p).fill_factor =
      ((((compute p).strand_centers.filter fun c =>
          decide (p.margin_mm ≤ c.1 ∧ c.1 ≤ p.margin_mm + windowWidth p ∧
            p.margin_mm ≤ c.2 ∧
            c.2 ≤ p.margin_mm + windowHeight p)).length : ℚ) *
        mathPi * radius p ^ 2) /
        (windowWidth p * windowHeight p) * 100 := by
  have hsc : (compute p).strand_centers = centersGlobal p := by
    rw [compute_of_valid p hw]
  rw [fill_of_valid p hw, hsc, List.countP_eq_length_filter]
  rfl

theorem claim_C3_witness :
    validWindow defaultInputs ∧
    (compute defaultInputs).fill_factor =
      ((((compute defaultInputs).strand_centers.filter fun c =>
          decide (defaultInputs.margin_mm ≤ c.1 ∧
            c.1 ≤ defaultInputs.margin_mm + windowWidth defaultInputs ∧
            defaultInputs.margin_mm ≤ c.2 ∧
            c.2 ≤ defaultInputs.margin_mm +
              windowHeight defaultInputs)).length : ℚ) *
        mathPi * radius defaultInputs ^ 2) /
        (windowWidth defaultInputs * windowHeight defaultInputs) * 100 := by
  have hw : validWindow defaultInputs :=
    validWindow_of _ (by norm_num [defaultInputs])
      (by norm_num [defaultInputs, radialThickness])
  exact ⟨hw, claim_C3_fill_factor_formula defaultInputs hw⟩

/-- C7: `fill_factor` is not clamped at 100: on the overpacked spec
`overpackInputs` (a valid 1×1 window holding one strand of effective
diameter 2), `compute` reports a fill factor of `100 π > 100` instead of
capping or rejecting it. -/
theorem claim_C7_no_clamp_above_100 :
    validWindow overpackInputs ∧
    (compute overpackInputs).fill_factor > 100 := by
  have hw : validWindow overpackInputs :=
    validWindow_of _ (by norm_num [overpackInputs])
      (by norm_num [overpackInputs, radialThickness])
  refine ⟨hw, ?_⟩
  have hww : windowWidth overpackInputs = 1 := by
    unfold windowWidth
    rw [max_eq_right] <;> norm_num [overpackInputs]
  have hwh : windowHeight overpackInputs = 1 := by
    unfold windowHeight radialThickness
    rw [max_eq_right] <;> norm_num [overpackInputs]
  have hr : radius overpackInputs = 1 := by
    norm_num [radius, dEff, overpackInputs]
  have hL : layersCount overpackInputs = 1 :=
    layersCount_eq _ 1 (by norm_num [overpackInputs, max_def])
  have hcg : centersGlobal overpackInputs = [((1 : ℚ), (1 : ℚ))] := by
    unfold centersGlobal
    rw [hL]
    show placeLoop _ 1 1 0 = _
    simp only [placeLoop, layerCenters, turnCenters,
      show overpackInputs.turns_per_layer = 1 from rfl, min_self]
    rw [if_pos (by norm_num)]
    norm_num [overpackInputs, spacingX, spacingY, bundleW, dEff, radius,
      List.range_succ]
  have hcount : (centersGlobal overpackInputs).countP
      (inWindow overpackInputs) = 1 := by
    rw [hcg]
    have hmem : inWindow overpackInputs ((1 : ℚ), (1 : ℚ)) = true := by
      rw [inWindow, decide_eq_true_eq, hww, hwh]
      norm_num [overpackInputs]
    simp only [Prod.mk_one_one] at hmem
    simp [List.countP_cons, hmem]
  rw [fill_of_valid _ hw, hcount, hww, hwh, hr]
  norm_num [mathPi]

theorem layerCenters_append (p : CoilInputs) (ly : ℕ) (t t' : ℤ)
    (h : t ≤ t') :
    ∃ rest, layerCenters p ly t' = layerCenters p ly t ++ rest := by
  unfold layerCenters
  have hle : t.toNat ≤ t'.toNat := Int.toNat_le_toNat h
  obtain ⟨k, hk⟩ := Nat.exists_eq_add_of_le hle
  rw [hk, List.range_add, List.flatMap_append]
  exact ⟨_, rfl⟩

theorem placeLoop_append (p : CoilInputs) (htpl : 1 ≤ p.turns_per_layer) :
    ∀ (fuel fuel' : ℕ) (r r' : ℤ) (ly : ℕ), fuel ≤ fuel' → 0 < r →
      r ≤ r' → r ≤ (fuel : ℤ) * p.turns_per_layer →
      ∃ rest, placeLoop p fuel' r' ly = placeLoop p fuel r ly ++ rest := by
  intro fuel
  induction fuel with
  | zero =>
    intro fuel' r r' ly _ hr _ hle
    rw [Nat.cast_zero, zero_mul] at hle
    omega
  | succ n ih =>
    intro fuel' r r' ly hf hr hrr hle
    obtain ⟨m, rfl⟩ : ∃ m, fuel' = m + 1 := ⟨fuel' - 1, by omega⟩
    by_cases hcase : r ≤ p.turns_per_layer
    · have ht : min p.turns_per_layer r = r := min_eq_right hcase
      by_cases hcase' : r' ≤ p.turns_per_layer
      · have ht' : min p.turns_per_layer r' = r' := min_eq_right hcase'
        obtain ⟨rest, hrest⟩ := layerCenters_append p ly r r' hrr
        refine ⟨rest, ?_⟩
        simp only [placeLoop, ht, ht', sub_self]
        rw [if_pos le_rfl, if_pos le_rfl, hrest]
      · push_neg at hcase'
        have ht' : min p.turns_per_layer r' = p.turns_per_layer :=
          min_eq_left hcase'.le
        obtain ⟨rest, hrest⟩ := layerCenters_append p ly r _ hcase
        refine ⟨rest ++ placeLoop p m (r' - p.turns_per_layer) (ly + 1), ?_⟩
        simp only [placeLoop, ht, ht']
        rw [if_neg (show ¬(r' - p.turns_per_layer ≤ 0) by omega),
          if_pos (show r - r ≤ 0 by omega), hrest, List.append_assoc]
    · push_neg at hcase
      have ht : min p.turns_per_layer r = p.turns_per_layer :=
        min_eq_left hcase.le
      have ht' : min p.turns_per_layer r' = p.turns_per_layer :=
        min_eq_left (hcase.le.trans hrr)
      obtain ⟨rest, hrest⟩ := ih m (r - p.turns_per_layer)
        (r' - p.turns_per_layer) (ly + 1) (by omega) (by omega) (by omega)
        (by push_cast at hle ⊢; linarith)
      refine ⟨rest, ?_⟩
      simp only [placeLoop, ht, ht']
      rw [if_neg (by omega), if_neg (by omega), hrest, List.append_assoc]

theorem layersCount_mono (p : CoilInputs) (T2 : ℤ)
    (h : p.total_turns ≤ T2) :
    layersCount p ≤ layersCount { p with total_turns := T2 } := by
  unfold layersCount
  rw [show ({ p with total_turns := T2 } : CoilInputs).turns_per_layer =
    p.turns_per_layer from rfl]
  rw [show ({ p with total_turns := T2 } : CoilInputs).total_turns = T2
    from rfl]
  apply Int.ceil_le_ceil
  have hden : (0 : ℚ) < ((max 1 p.turns_per_layer : ℤ) : ℚ) := by
    have h1 : (1 : ℤ) ≤ max 1 p.turns_per_layer := le_max_left 1 _
    exact_mod_cast lt_of_lt_of_le zero_lt_one h1
  have hT : (p.total_turns : ℚ) ≤ (T2 : ℚ) := by exact_mod_cast h
  gcongr

theorem centersGlobal_append (p : CoilInputs) (T2 : ℤ)
    (htpl : 1 ≤ p.turns_per_layer) (h0 : 0 ≤ p.total_turns)
    (hT : p.total_turns ≤ T2) :
    ∃ rest, centersGlobal { p with total_turns := T2 } =
      centersGlobal p ++ rest := by
  rcases eq_or_lt_of_le h0 with h00 | h00
  · refine ⟨centersGlobal { p with total_turns := T2 }, ?_⟩
    rw [centersGlobal_of_nonpos_turns p (le_of_eq h00.symm),
      List.nil_append]
  · unfold centersGlobal
    rw [show ({ p with total_turns := T2 } : CoilInputs).total_turns = T2
      from rfl]
    have hpq : ∀ (fuel : ℕ) (r : ℤ) (ly : ℕ),
        placeLoop { p with total_turns := T2 } fuel r ly =
          placeLoop p fuel r ly := by
      intro fuel
      induction fuel with
      | zero => intro r ly; rfl
      | succ n ih =>
        intro r ly
        simp only [placeLoop, ih]
        rfl
    rw [hpq]
    apply placeLoop_append p htpl (layersCount p).toNat _ _ _ 0
    · exact Int.toNat_le_toNat (layersCount_mono p T2 hT)
    · exact h00
    · exact hT
    · rw [Int.toNat_of_nonneg (layersCount_nonneg p h0)]
      exact layersCount_mul_ge p htpl

/-- C5: increasing `total_turns` while holding every other field fixed
(with `total_turns ≥ 0`, `turns_per_layer ≥ 1`, `strands_per_turn ≥ 1`)
never decreases `fill_factor`: the placement for the larger turn count
extends the placement for the smaller one, so the in-window tally can
only grow. -/
theorem claim_C5_monotonic_fill (p : CoilInputs) (T2 : ℤ)
    (h0 : 0 ≤ p.total_turns) (h12 : p.total_turns ≤ T2)
    (htpl : 1 ≤ p.turns_per_layer) (hspt : 1 ≤ p.strands_per_turn) :
    (compute p).fill_factor ≤
      (compute { p with total_turns := T2 }).fill_factor := by
  by_cases hw : validWindow p
  · have hwq : validWindow ({ p with total_turns := T2 } : CoilInputs) := hw
    rw [fill_of_valid p hw, fill_of_valid _ hwq]
    rw [show windowWidth { p with total_turns := T2 } = windowWidth p
      from rfl]
    rw [show windowHeight { p with total_turns := T2 } = windowHeight p
      from rfl]
    rw [show radius { p with total_turns := T2 } = radius p from rfl]
    rw [show inWindow { p with total_turns := T2 } = inWindow p from rfl]
    have hcp : ((centersGlobal p).countP (inWindow p) : ℚ) ≤
        ((centersGlobal { p with total_turns := T2 }).countP
          (inWindow p) : ℚ) := by
      obtain ⟨rest, hrest⟩ := centersGlobal_append p T2 htpl h0 h12
      rw [hrest, List.countP_append]
      exact_mod_cast Nat.le_add_right _ _
    have harea : (0 : ℚ) < windowWidth p * windowHeight p :=
      mul_pos hw.1 hw.2
    gcongr
    norm_num [mathPi]
  · have hg : windowWidth p ≤ 0 ∨ windowHeight p ≤ 0 := by
      unfold validWindow at hw
      push_neg at hw
      rcases le_or_lt (windowWidth p) 0 with h' | h'
      · exact Or.inl h'
      · exact Or.inr (hw h')
    have hgq : windowWidth ({ p with total_turns := T2 } : CoilInputs) ≤ 0 ∨
        windowHeight ({ p with total_turns := T2 } : CoilInputs) ≤ 0 := hg
    rw [compute_of_invalid p hg, compute_of_invalid _ hgq]

theorem claim_C5_witness :
    (0 : ℤ) ≤ defaultInputs.total_turns ∧
    defaultInputs.total_turns ≤ 200 ∧
    1 ≤ defaultInputs.turns_per_layer ∧
    1 ≤ defaultInputs.strands_per_turn ∧
    (compute defaultInputs).fill_factor ≤
      (compute { defaultInputs with total_turns := 200 }).fill_factor :=
  ⟨by decide, by decide, by decide, by decide,
    claim_C5_monotonic_fill defaultInputs 200 (by decide) (by decide)
      (by decide) (by decide)⟩

theorem scale_windowWidth (k : ℚ) (p : CoilInputs) (hk : 0 ≤ k) :
    windowWidth (scaleInputs k p) = k * windowWidth p := by
  unfold windowWidth scaleInputs
  rw [mul_max_of_nonneg _ _ hk, mul_zero]
  congr 1
  ring

theorem scale_windowHeight (k : ℚ) (p : CoilInputs) (hk : 0 ≤ k) :
    windowHeight (scaleInputs k p) = k * windowHeight p := by
  unfold windowHeight radialThickness scaleInputs
  rw [mul_max_of_nonneg _ _ hk, mul_zero]
  congr 1
  ring

theorem scale_dEff (k : ℚ) (p : CoilInputs) :
    dEff (scaleInputs k p) = k * dEff p := by
  unfold dEff scaleInputs
  ring

theorem scale_radius (k : ℚ) (p : CoilInputs) :
    radius (scaleInputs k p) = k * radius p := by
  unfold radius
  rw [scale_dEff]
  ring

theorem scale_spacingX (k : ℚ) (p : CoilInputs) :
    spacingX (scaleInputs k p) = k * spacingX p := by
  unfold spacingX bundleW
  rw [scale_dEff]
  rw [show (scaleInputs k p).strands_per_turn = p.strands_per_turn from rfl]
  rw [show (scaleInputs k p).horiz_pack_factor = p.horiz_pack_factor
    from rfl]
  ring

theorem scale_spacingY (k : ℚ) (p : CoilInputs) :
    spacingY (scaleInputs k p) = k * spacingY p := by
  unfold spacingY
  rw [scale_dEff]
  rw [show (scaleInputs k p).vert_pack_factor = p.vert_pack_factor from rfl]
  ring

theorem scale_turnCenters (k : ℚ) (p : CoilInputs) (ly tx : ℕ) :
    turnCenters (scaleInputs k p) ly tx =
      (turnCenters p ly tx).map fun c => (k * c.1, k * c.2) := by
  unfold turnCenters
  rw [List.map_map]
  rw [show (scaleInputs k p).strands_per_turn = p.strands_per_turn from rfl]
  apply List.map_congr_left
  intro s _
  simp only [Function.comp_apply]
  rw [scale_spacingX, scale_spacingY, scale_dEff, scale_radius]
  rw [show (scaleInputs k p).margin_mm = k * p.margin_mm from rfl]
  simp only [Prod.mk.injEq]
  constructor <;> ring

theorem scale_layerCenters (k : ℚ) (p : CoilInputs) (ly : ℕ) (t : ℤ) :
    layerCenters (scaleInputs k p) ly t =
      (layerCenters p ly t).map fun c => (k * c.1, k * c.2) := by
  unfold layerCenters
  rw [List.map_flatMap]
  congr 1
  funext tx
  exact scale_turnCenters k p ly tx

theorem scale_placeLoop (k : ℚ) (p : CoilInputs) :
    ∀ (fuel : ℕ) (r : ℤ) (ly : ℕ),
      placeLoop (scaleInputs k p) fuel r ly =
        (placeLoop p fuel r ly).map fun c => (k * c.1, k * c.2) := by
  intro fuel
  induction fuel with
  | zero => intro r ly; rfl
  | succ n ih =>
    intro r ly
    simp only [placeLoop,
      show (scaleInputs k p).turns_per_layer = p.turns_per_layer from rfl,
      scale_layerCenters, ih]
    split
    · rfl
    · rw [List.map_append]

theorem scale_centersGlobal (k : ℚ) (p : CoilInputs) :
    centersGlobal (scaleInputs k p) =
      (centersGlobal p).map fun c => (k * c.1, k * c.2) := by
  unfold centersGlobal
  rw [show layersCount (scaleInputs k p) = layersCount p from rfl]
  rw [show (scaleInputs k p).total_turns = p.total_turns from rfl]
  exact scale_placeLoop k p _ _ _

theorem scale_inWindow (k : ℚ) (p : CoilInputs) (hk : 0 < k) (c : ℚ × ℚ) :
    inWindow (scaleInputs k p) (k * c.1, k * c.2) = inWindow p c := by
  unfold inWindow
  rw [decide_eq_decide]
  rw [scale_windowWidth k p hk.le, scale_windowHeight k p hk.le]
  rw [show (scaleInputs k p).margin_mm = k * p.margin_mm from rfl]
  rw [show k * p.margin_mm + k * windowWidth p =
    k * (p.margin_mm + windowWidth p) by ring]
  rw [show k * p.margin_mm + k * windowHeight p =
    k * (p.margin_mm + windowHeight p) by ring]
  rw [mul_le_mul_left hk, mul_le_mul_left hk, mul_le_mul_left hk,
    mul_le_mul_left hk]

theorem scale_countP (k : ℚ) (p : CoilInputs) (hk : 0 < k) :
    (centersGlobal (scaleInputs k p)).countP (inWindow (scaleInputs k p)) =
      (centersGlobal p).countP (inWindow p) := by
  rw [scale_centersGlobal, List.countP_map]
  apply List.countP_congr
  intro c _
  simp only [Function.comp_apply]
  rw [scale_inWindow k p hk c]

/-- C6: scaling `inner_diameter`, `outer_diameter`, `bobbin_length`,
`strand_diameter` and `margin` all by the same positive factor `k`
(counts, insulation factor and pack factors fixed) leaves `fill_factor`
unchanged: every center scales by `k`, the window bounds scale by `k`,
so the in-window count is identical and the `k²` factors in copper area
and window area cancel. -/
theorem claim_C6_scale_invariance (p : CoilInputs) (k : ℚ) (hk : 0 < k) :
    (compute (scaleInputs k p)).fill_factor = (compute p).fill_factor := by
  by_cases hw : validWindow p
  · have hwq : validWindow (scaleInputs k p) := by
      constructor
      · rw [scale_windowWidth k p hk.le]
        exact mul_pos hk hw.1
      · rw [scale_windowHeight k p hk.le]
        exact mul_pos hk hw.2
    rw [fill_of_valid _ hwq, fill_of_valid p hw]
    rw [scale_countP k p hk, scale_windowWidth k p hk.le,
      scale_windowHeight k p hk.le, scale_radius k p]
    rw [show k * windowWidth p * (k * windowHeight p) =
      k ^ 2 * (windowWidth p * windowHeight p) by ring]
    rw [show ((centersGlobal p).countP (inWindow p) : ℚ) * mathPi *
      (k * radius p) ^ 2 =
      k ^ 2 * (((centersGlobal p).countP (inWindow p) : ℚ) * mathPi *
        radius p ^ 2) by ring]
    rw [mul_div_mul_left _ _ (pow_ne_zero 2 hk.ne')]
  · have hg : windowWidth p ≤ 0 ∨ windowHeight p ≤ 0 := by
      unfold validWindow at hw
      push_neg at hw
      rcases le_or_lt (windowWidth p) 0 with h' | h'
      · exact Or.inl h'
      · exact Or.inr (hw h')
    have hgq : windowWidth (scaleInputs k p) ≤ 0 ∨
        windowHeight (scaleInputs k p) ≤ 0 := by
      rcases hg with h' | h'
      · left
        rw [scale_windowWidth k p hk.le]
        exact mul_nonpos_of_nonneg_of_nonpos hk.le h'
      · right
        rw [scale_windowHeight k p hk.le]
        exact mul_nonpos_of_nonneg_of_nonpos hk.le h'
    rw [compute_of_invalid _ hgq, compute_of_invalid p hg]

theorem claim_C6_witness :
    (0 : ℚ) < 2 ∧
    (compute (scaleInputs 2 defaultInputs)).fill_factor =
      (compute defaultInputs).fill_factor :=
  ⟨by norm_num,
    claim_C6_scale_invariance defaultInputs 2 (by norm_num)⟩

theorem placeLoop_closed_form (p : CoilInputs)
    (htpl : 1 ≤ p.turns_per_layer) :
    ∀ (fuel : ℕ) (r : ℤ) (ly0 : ℕ), 0 < r →
      r ≤ (fuel : ℤ) * p.turns_per_layer →
      placeLoop p fuel r ly0 =
        (List.range (⌈(r : ℚ) / (p.turns_per_layer : ℚ)⌉).toNat).flatMap
          fun j => layerCenters p (ly0 + j)
            (min p.turns_per_layer (r - (j : ℤ) * p.turns_per_layer)) := by
  have htplQ : (0 : ℚ) < (p.turns_per_layer : ℚ) := by
    exact_mod_cast lt_of_lt_of_le zero_lt_one htpl
  intro fuel
  induction fuel with
  | zero =>
    intro r ly0 hr hle
    rw [Nat.cast_zero, zero_mul] at hle
    omega
  | succ n ih =>
    intro r ly0 hr hle
    by_cases hcase : r ≤ p.turns_per_layer
    · have hceil : ⌈(r : ℚ) / (p.turns_per_layer : ℚ)⌉ = 1 := by
        rw [Int.ceil_eq_iff]
        constructor
        · have h1 : (0 : ℚ) < (r : ℚ) / (p.turns_per_layer : ℚ) :=
            div_pos (by exact_mod_cast hr) htplQ
          push_cast
          linarith
        · have h2 : (r : ℚ) / (p.turns_per_layer : ℚ) ≤ 1 :=
            (div_le_one htplQ).2 (by exact_mod_cast hcase)
          push_cast
          linarith
      have ht : min p.turns_per_layer r = r := min_eq_right hcase
      rw [hceil, show ((1 : ℤ)).toNat = 1 from rfl,
        show List.range 1 = [0] from rfl,
        List.flatMap_cons, List.flatMap_nil, List.append_nil]
      simp only [placeLoop, ht]
      rw [if_pos (by omega)]
      rw [Nat.cast_zero, zero_mul, sub_zero, Nat.add_zero, ht]
    · push_neg at hcase
      have ht : min p.turns_per_layer r = p.turns_per_layer :=
        min_eq_left hcase.le
      have hsub : ((r - p.turns_per_layer : ℤ) : ℚ) /
          (p.turns_per_layer : ℚ) =
          (r : ℚ) / (p.turns_per_layer : ℚ) - ((1 : ℤ) : ℚ) := by
        push_cast
        rw [sub_div, div_self (ne_of_gt htplQ)]
      have hceil : ⌈(r : ℚ) / (p.turns_per_layer : ℚ)⌉ =
          ⌈((r - p.turns_per_layer : ℤ) : ℚ) /
            (p.turns_per_layer : ℚ)⌉ + 1 := by
        rw [hsub, Int.ceil_sub_int]
        ring
      have hLpos : 0 < ⌈((r - p.turns_per_layer : ℤ) : ℚ) /
          (p.turns_per_layer : ℚ)⌉ := by
        rw [Int.lt_ceil]
        push_cast
        apply div_pos _ htplQ
        have : (0 : ℤ) < r - p.turns_per_layer := by omega
        exact_mod_cast this
      have htn : (⌈(r : ℚ) / (p.turns_per_layer : ℚ)⌉).toNat =
          (⌈((r - p.turns_per_layer : ℤ) : ℚ) /
            (p.turns_per_layer : ℚ)⌉).toNat + 1 := by
        omega
      rw [htn, List.range_succ_eq_map, List.flatMap_cons, List.flatMap_map]
      simp only [placeLoop, ht]
      rw [if_neg (by omega)]
      congr 1
      · rw [Nat.cast_zero, zero_mul, sub_zero, Nat.add_zero, ht]
      · rw [ih (r - p.turns_per_layer) (ly0 + 1) (by omega)
          (by push_cast at hle ⊢; linarith)]
        congr 1
        funext j
        congr 1
        · omega
        · congr 1
          push_cast
          ring

theorem specCenters_unfold (p : CoilInputs) :
    specCenters p = (List.range (layersCount p).toNat).flatMap
      fun ly => layerCenters p ly (specLayerTurns p ly) := rfl

theorem layersCount_of_zero_turns (p : CoilInputs)
    (h : p.total_turns = 0) : layersCount p = 0 := by
  unfold layersCount
  rw [h, Int.cast_zero, zero_div, Int.ceil_zero]

theorem strand_centers_eq_specCenters (p : CoilInputs) (hw : validWindow p)
    (htpl : 1 ≤ p.turns_per_layer) (hT : 0 ≤ p.total_turns) :
    (compute p).strand_centers = specCenters p := by
  rw [compute_of_valid p hw]
  show centersGlobal p = specCenters p
  have hmax : max 1 p.turns_per_layer = p.turns_per_layer :=
    max_eq_right htpl
  rcases eq_or_lt_of_le hT with h0 | h0
  · rw [centersGlobal_of_nonpos_turns p (le_of_eq h0.symm),
      specCenters_unfold, layersCount_of_zero_turns p h0.symm]
    rfl
  · unfold centersGlobal
    rw [placeLoop_closed_form p htpl (layersCount p).toNat p.total_turns 0
      h0 (by rw [Int.toNat_of_nonneg (layersCount_nonneg p hT)]
             exact layersCount_mul_ge p htpl)]
    rw [specCenters_unfold]
    have hL : layersCount p = ⌈(p.total_turns : ℚ) /
        (p.turns_per_layer : ℚ)⌉ := by
      unfold layersCount
      rw [hmax]
    rw [hL]
    congr 1
    funext j
    rw [Nat.zero_add]
    rfl

theorem spacingY_pos (p : CoilInputs) (hsd : 0 < p.strand_diameter_mm)
    (hins : 1 ≤ p.insulation_factor) (hvp : 0 < p.vert_pack_factor) :
    0 < spacingY p := by
  unfold spacingY dEff
  have : (0 : ℚ) < p.insulation_factor := lt_of_lt_of_le one_pos hins
  positivity

/-- C2: with a valid window (and in-range counts), `strand_centers` is
exactly the layer-major, then turn-major, then strand-index-major
sequence whose center for layer `ly`, turn `tx`, strand `s` is
`(margin + tx*spacing_x + s*d_eff + radius, margin + ly*spacing_y + radius)`
(formalised as the spec-side list `specCenters`); consequently, when
`strand_diameter`, the pack factors and `insulation_factor` are positive
and a second layer exists, the first `turns_per_layer × strands_per_turn`
entries all share the first-layer `y` value `margin + radius` and the
next entry's `y` is strictly greater. -/
theorem claim_C2_ordering_and_positions (p : CoilInputs)
    (hw : validWindow p) (htpl : 1 ≤ p.turns_per_layer)
    (hT : 0 ≤ p.total_turns) :
    (compute p).strand_centers = specCenters p ∧
    (0 < p.strand_diameter_mm → 1 ≤ p.insulation_factor →
     0 < p.vert_pack_factor → 1 ≤ p.strands_per_turn →
     p.turns_per_layer < p.total_turns →
      ((∀ c ∈ (compute p).strand_centers.take
          (p.turns_per_layer.toNat * p.strands_per_turn.toNat),
          c.2 = p.margin_mm + radius p) ∧
       ∀ c ∈ ((compute p).strand_centers.drop
          (p.turns_per_layer.toNat * p.strands_per_turn.toNat)).head?,
          p.margin_mm + radius p < c.2)) := by
  have hmain := strand_centers_eq_specCenters p hw htpl hT
  refine ⟨hmain, ?_⟩
  intro hsd hins hvp hspt hlt
  have hsy : 0 < spacingY p := spacingY_pos p hsd hins hvp
  -- decompose specCenters into layer 0, layer 1 and the rest
  have hL2 : 2 ≤ layersCount p := by
    have hmax : max 1 p.turns_per_layer = p.turns_per_layer :=
      max_eq_right htpl
    unfold layersCount
    rw [hmax]
    have : (1 : ℤ) < ⌈(p.total_turns : ℚ) / (p.turns_per_layer : ℚ)⌉ := by
      rw [Int.lt_ceil]
      have htplQ : (0 : ℚ) < (p.turns_per_layer : ℚ) := by
        exact_mod_cast lt_of_lt_of_le zero_lt_one htpl
      rw [lt_div_iff htplQ]
      push_cast
      rw [one_mul]
      exact_mod_cast hlt
    omega
  obtain ⟨m, hm⟩ : ∃ m, (layersCount p).toNat = m + 2 := by
    refine ⟨(layersCount p).toNat - 2, ?_⟩
    omega
  have ht0 : specLayerTurns p 0 = p.turns_per_layer := by
    unfold specLayerTurns
    rw [Nat.cast_zero, zero_mul, sub_zero]
    exact min_eq_left hlt.le
  have hdecomp : specCenters p =
      layerCenters p 0 p.turns_per_layer ++
        (layerCenters p 1 (specLayerTurns p 1) ++
          (List.range m).flatMap fun j =>
            layerCenters p (j + 2) (specLayerTurns p (j + 2))) := by
    rw [specCenters_unfold, hm]
    rw [show m + 2 = 2 + m by omega, List.range_add,
      List.flatMap_append, show List.range 2 = [0, 1] from rfl,
      List.flatMap_cons, List.flatMap_cons, List.flatMap_nil,
      List.append_nil, List.flatMap_map, ht0, List.append_assoc]
    congr 2
    congr 1
    funext j
    rw [Nat.add_comm 2 j]
  have hlen : (layerCenters p 0 p.turns_per_layer).length =
      p.turns_per_layer.toNat * p.strands_per_turn.toNat :=
    layerCenters_length p 0 p.turns_per_layer
  constructor
  · intro c hc
    rw [hmain, hdecomp, ← hlen, List.take_left] at hc
    unfold layerCenters turnCenters at hc
    rw [List.mem_flatMap] at hc
    obtain ⟨tx, _, hc⟩ := hc
    rw [List.mem_map] at hc
    obtain ⟨s, _, rfl⟩ := hc
    show p.margin_mm + (0 : ℕ) * spacingY p + radius p =
      p.margin_mm + radius p
    rw [Nat.cast_zero, zero_mul, add_zero]
  · intro c hc
    rw [hmain, hdecomp, ← hlen, List.drop_left] at hc
    have ht1 : 1 ≤ (specLayerTurns p 1).toNat := by
      unfold specLayerTurns
      omega
    obtain ⟨m1, hm1⟩ : ∃ m1, (specLayerTurns p 1).toNat = m1 + 1 :=
      ⟨(specLayerTurns p 1).toNat - 1, by omega⟩
    obtain ⟨m2, hm2⟩ : ∃ m2, p.strands_per_turn.toNat = m2 + 1 :=
      ⟨p.strands_per_turn.toNat - 1, by omega⟩
    rw [show layerCenters p 1 (specLayerTurns p 1) =
        (List.range (specLayerTurns p 1).toNat).flatMap
          fun tx => turnCenters p 1 tx from rfl, hm1,
      List.range_succ_eq_map, List.flatMap_cons] at hc
    rw [show turnCenters p 1 0 =
        (List.range p.strands_per_turn.toNat).map
          (fun (s : ℕ) =>
            (p.margin_mm + (0 : ℕ) * spacingX p + (s : ℚ) * dEff p +
              radius p,
             p.margin_mm + (1 : ℕ) * spacingY p + radius p)) from rfl,
      hm2, List.range_succ_eq_map, List.map_cons] at hc
    simp only [List.cons_append, List.head?_cons, Option.mem_def,
      Option.some.injEq] at hc
    rw [← hc]
    show p.margin_mm + radius p <
      p.margin_mm + (1 : ℕ) * spacingY p + radius p
    rw [Nat.cast_one, one_mul]
    linarith

theorem claim_C2_witness :
    validWindow defaultInputs ∧ 1 ≤ defaultInputs.turns_per_layer ∧
    0 ≤ defaultInputs.total_turns ∧
    (compute defaultInputs).strand_centers = specCenters defaultInputs ∧
    (0 : ℚ) < defaultInputs.strand_diameter_mm ∧
    1 ≤ defaultInputs.insulation_factor ∧
    (0 : ℚ) < defaultInputs.vert_pack_factor ∧
    1 ≤ defaultInputs.strands_per_turn ∧
    defaultInputs.turns_per_layer < defaultInputs.total_turns ∧
    ((∀ c ∈ (compute defaultInputs).strand_centers.take
        (defaultInputs.turns_per_layer.toNat *
          defaultInputs.strands_per_turn.toNat),
        c.2 = defaultInputs.margin_mm + radius defaultInputs) ∧
     ∀ c ∈ ((compute defaultInputs).strand_centers.drop
        (defaultInputs.turns_per_layer.toNat *
          defaultInputs.strands_per_turn.toNat)).head?,
        defaultInputs.margin_mm + radius defaultInputs < c.2) := by
  have hw : validWindow defaultInputs :=
    validWindow_of _ (by norm_num [defaultInputs])
      (by norm_num [defaultInputs, radialThickness])
  have h := claim_C2_ordering_and_positions defaultInputs hw
    (by decide) (by decide)
  exact ⟨hw, by decide, by decide, h.1,
    by norm_num [defaultInputs], by norm_num [defaultInputs],
    by norm_num [defaultInputs], by decide, by decide,
    h.2 (by norm_num [defaultInputs]) (by norm_num [defaultInputs])
      (by norm_num [defaultInputs]) (by decide) (by decide)⟩

end CoilPackModel
